import Mathlib

/-!
Shallow embedding of the pkgutils package-state engine
(`src/libpkgutils/pkgutil.cpp`, `src/pkgadd.cpp`, `pkg_utils.cc`).

The in-memory catalogue `packages` (a `std::map<std::string, pkginfo_t>`)
is modelled as an association list ordered by key; `std::set<std::string>`
is modelled as a list of strings, with the element-erase operation
removing the key wherever it occurs.  Filesystem state is explicit:
the database directory is a record of three optional files, and the
wider filesystem enters only through predicates (existence) and
outcome functions (result of `remove(2)`).
-/

namespace Pkgutils

/-- Lexicographic comparison of character lists
(the `std::string` `operator<` byte order). -/
def lexLt : List Char → List Char → Bool
  | [], [] => false
  | [], _ :: _ => true
  | _ :: _, [] => false
  | a :: as, b :: bs =>
    if a.toNat < b.toNat then true
    else if b.toNat < a.toNat then false
    else lexLt as bs

/-- Model of `std::string` `operator<`. -/
def strLt (a b : String) : Bool :=
  lexLt a.data b.data

/-- The phase-3 test of `db_find_conflicts`:
`(*i)[i->length() - 1] == '/'` (false on the empty string, on which
the C++ expression would be out of range). -/
def endsSlash (s : String) : Bool :=
  s.data.getLast? == some '/'

theorem lexLt_self_eq_false : ∀ (a : List Char), lexLt a a = false := by
  intro a
  induction a with
  | nil => rfl
  | cons c cs ih =>
    simp only [lexLt]
    rw [if_neg (lt_irrefl c.toNat), if_neg (lt_irrefl c.toNat)]
    exact ih

theorem lexLt_asymm : ∀ {a b : List Char},
    lexLt a b = true → lexLt b a = false := by
  intro a
  induction a with
  | nil =>
    intro b h
    cases b with
    | nil => simp [lexLt] at h
    | cons c cs => rfl
  | cons c cs ih =>
    intro b h
    cases b with
    | nil => simp [lexLt] at h
    | cons d ds =>
      simp only [lexLt] at h ⊢
      by_cases hcd : c.toNat < d.toNat
      · rw [if_neg (Nat.lt_asymm hcd), if_pos hcd]
      · rw [if_neg hcd] at h
        by_cases hdc : d.toNat < c.toNat
        · rw [if_pos hdc] at h
          cases h
        · rw [if_neg hdc] at h
          rw [if_neg hdc, if_neg hcd]
          exact ih h

theorem strLt_ne {a b : String} (h : strLt a b = true) : a ≠ b := by
  intro hab
  subst hab
  rw [strLt, lexLt_self_eq_false] at h
  cases h

theorem strLt_asymm {a b : String} (h : strLt a b = true) :
    strLt b a = false :=
  lexLt_asymm h

/-- Model of `pkgutil::pkginfo_t`: a version string and the owned file paths. -/
structure Pkginfo where
  version : String
  files : List String
deriving DecidableEq, Repr

/-- Model of `pkgutil::packages_t`: map from package name to `Pkginfo`,
modelled as an association list kept in key order. -/
abbrev Packages := List (String × Pkginfo)

/-- Model of `std::set<std::string>::erase(key)`: drop the key from the set. -/
def setErase (x : String) (l : List String) : List String :=
  l.filter (fun y => y ≠ x)

/-- Model of `std::set<std::string>::insert`: insert keeping order, no duplicate. -/
def insertSorted (x : String) : List String → List String
  | [] => [x]
  | y :: ys =>
    if strLt x y then x :: y :: ys
    else if x = y then y :: ys
    else y :: insertSorted x ys

/-- Model of `std::map::operator[]= (packages[name] = info)`: insert or overwrite. -/
def pkgsInsert (name : String) (info : Pkginfo) : Packages → Packages
  | [] => [(name, info)]
  | (n, i) :: rest =>
    if strLt name n then (name, info) :: (n, i) :: rest
    else if name = n then (name, info) :: rest
    else (n, i) :: pkgsInsert name info rest

/-- Model of `std::map::find` (value view): look a package up by name. -/
def pkgsLookup (name : String) : Packages → Option Pkginfo
  | [] => none
  | (n, i) :: rest => if n = name then some i else pkgsLookup name rest

/-- Model of `std::map::erase(name)`: drop the entry with this key. -/
def pkgsErase (name : String) (pkgs : Packages) : Packages :=
  pkgs.filter (fun e => e.1 ≠ name)

/-- Model of `std::map::operator[]` read path: yields the mapped entry,
default-inserting an empty `pkginfo_t` when the key is missing
(exactly the C++ `packages[name]` behaviour). -/
def mapIndex (pkgs : Packages) (name : String) : Pkginfo × Packages :=
  match pkgsLookup name pkgs with
  | some i => (i, pkgs)
  | none => (⟨"", []⟩, pkgsInsert name ⟨"", []⟩ pkgs)

/-- Model of `pkgutil::db_find_pkg`. -/
def db_find_pkg (pkgs : Packages) (name : String) : Bool :=
  (pkgsLookup name pkgs).isSome

/-- Model of `pkgutil::db_add_pkg`. -/
def db_add_pkg (pkgs : Packages) (name : String) (info : Pkginfo) : Packages :=
  pkgsInsert name info pkgs

/-- Erase every element of `l` from the set `fs`
(the inner reference-subtraction loops of the remove engine). -/
def eraseAllList (fs : List String) (l : List String) : List String :=
  l.foldl (fun acc f => setErase f acc) fs

/-- Subtract from `fs` every file of every package in `pkgs`
(the "don't delete files that still have references" loop). -/
def subtractRefs (fs : List String) (pkgs : Packages) : List String :=
  pkgs.foldl (fun acc e => eraseAllList acc e.2.files) fs

theorem mem_setErase {p x : String} {l : List String} :
    p ∈ setErase x l ↔ p ∈ l ∧ p ≠ x := by
  simp [setErase]

theorem mem_insertSorted {p x : String} {l : List String} :
    p ∈ insertSorted x l ↔ p = x ∨ p ∈ l := by
  induction l with
  | nil => simp [insertSorted]
  | cons y ys ih =>
    simp only [insertSorted]
    split
    · simp
    · split
      · rename_i hlt heq
        subst heq
        simp only [List.mem_cons]
        tauto
      · simp only [List.mem_cons, ih]
        tauto

theorem mem_eraseAllList {p : String} {fs l : List String} :
    p ∈ eraseAllList fs l ↔ p ∈ fs ∧ p ∉ l := by
  induction l generalizing fs with
  | nil => simp [eraseAllList]
  | cons x xs ih =>
    simp only [eraseAllList, List.foldl_cons] at *
    rw [ih, mem_setErase]
    simp only [List.mem_cons]
    tauto

theorem mem_subtractRefs {p : String} {fs : List String} {pkgs : Packages} :
    p ∈ subtractRefs fs pkgs ↔ p ∈ fs ∧ ∀ e ∈ pkgs, p ∉ e.2.files := by
  induction pkgs generalizing fs with
  | nil => simp [subtractRefs]
  | cons e es ih =>
    simp only [subtractRefs, List.foldl_cons] at *
    rw [ih, mem_eraseAllList]
    simp only [List.mem_cons]
    constructor
    · rintro ⟨⟨h1, h2⟩, h3⟩
      exact ⟨h1, fun e' he' => he'.elim (fun h => h ▸ h2) (h3 e')⟩
    · rintro ⟨h1, h2⟩
      exact ⟨⟨h1, h2 e (Or.inl rfl)⟩, fun e' he' => h2 e' (Or.inr he')⟩

theorem pkgsLookup_insert_self {name : String} {info : Pkginfo} {pkgs : Packages} :
    pkgsLookup name (pkgsInsert name info pkgs) = some info := by
  induction pkgs with
  | nil => simp [pkgsInsert, pkgsLookup]
  | cons e es ih =>
    obtain ⟨n, i⟩ := e
    simp only [pkgsInsert]
    split
    · simp [pkgsLookup]
    · split
      · rename_i hlt heq
        simp [pkgsLookup]
      · rename_i hlt heq
        simp only [pkgsLookup]
        rw [if_neg (fun h => heq h.symm)]
        exact ih

theorem pkgsLookup_eq_none_iff {name : String} {pkgs : Packages} :
    pkgsLookup name pkgs = none ↔ ∀ e ∈ pkgs, e.1 ≠ name := by
  induction pkgs with
  | nil => simp [pkgsLookup]
  | cons e es ih =>
    obtain ⟨n, i⟩ := e
    simp only [pkgsLookup]
    by_cases hn : n = name
    · simp [hn]
    · rw [if_neg hn]
      simp only [List.mem_cons, ih]
      constructor
      · rintro h e' (rfl | he')
        · exact hn
        · exact h e' he'
      · intro h e' he'
        exact h e' (Or.inr he')

theorem pkgsErase_pkgsInsert {name : String} {info : Pkginfo} {pkgs : Packages} :
    pkgsErase name (pkgsInsert name info pkgs) = pkgsErase name pkgs := by
  induction pkgs with
  | nil => simp [pkgsInsert, pkgsErase]
  | cons e es ih =>
    obtain ⟨n, i⟩ := e
    simp only [pkgsInsert]
    split
    · simp [pkgsErase]
    · split
      · rename_i hlt heq
        subst heq
        simp [pkgsErase]
      · rename_i hlt heq
        simp only [pkgsErase, List.filter_cons] at *
        split
        · rw [ih]
        · exact ih

theorem pkgsErase_eq_self_of_lookup_none {name : String} {pkgs : Packages}
    (h : pkgsLookup name pkgs = none) :
    pkgsErase name pkgs = pkgs := by
  have hall := pkgsLookup_eq_none_iff.mp h
  simp only [pkgsErase]
  rw [List.filter_eq_self]
  intro e he
  simpa using hall e he

/-! ### Database store: `pkgutil::db_open` / `pkgutil::db_commit`

On-disk files are modelled as `List String × Nat`: the list of text
lines the file holds and its creation mode.  The database directory
holds three such files. -/

/-- The file slots of `<root>/var/lib/pkg`: `db`, `db.incomplete_transaction`
and `db.backup`, each either absent or `(lines, mode)`. -/
structure DbFs where
  db : Option (List String × Nat)
  dbNew : Option (List String × Nat)
  dbBak : Option (List String × Nat)
deriving DecidableEq, Repr

/-- The inner getline loop of `db_open`: collect file lines until a
blank line (end of record) or end of input. -/
def readFiles : List String → List String × List String
  | [] => ([], [])
  | f :: rest =>
    if f = "" then ([], rest)
    else
      let p := readFiles rest
      (f :: p.1, p.2)

theorem readFiles_length_le (l : List String) :
    (readFiles l).2.length ≤ l.length := by
  induction l with
  | nil => simp [readFiles]
  | cons f rest ih =>
    simp only [readFiles]
    split
    · simp
    · simpa using Nat.le_succ_of_le ih

/-- The record loop of `db_open`: name line, version line, file lines
up to a blank line; records with an empty file list are dropped. -/
def parseDbAux (m : Packages) : List String → Packages
  | [] => m
  | [_] => m
  | name :: version :: rest =>
    let fr := readFiles rest
    let m' := if fr.1.isEmpty then m else pkgsInsert name ⟨version, fr.1⟩ m
    parseDbAux m' fr.2
termination_by l => l.length
decreasing_by
  exact Nat.lt_succ_of_le (Nat.le_succ_of_le (readFiles_length_le _))

/-- Model of `pkgutil::db_open` restricted to its catalogue-loading effect. -/
def parseDb (lines : List String) : Packages :=
  parseDbAux [] lines

/-- The write loop of `db_commit`: every entry with a non-empty file
list, in catalogue iteration order, as name, version, files, blank. -/
def serialize (pkgs : Packages) : List String :=
  pkgs.foldl
    (fun acc e =>
      if e.2.files.isEmpty then acc
      else acc ++ (e.1 :: e.2.version :: e.2.files ++ [""])) []

/-- Step 1 of the commit: unlink a stale `db.incomplete_transaction`
(`ENOENT` tolerated). -/
def unlinkNew (fs : DbFs) : DbFs :=
  { fs with dbNew := none }

/-- Step 2: `creat(dbfilename_new, 0444)` plus the write loop.  `creat`
truncates but keeps the mode when the file already exists. -/
def creatNew (fs : DbFs) (content : List String) : DbFs :=
  match fs.dbNew with
  | some d => { fs with dbNew := some (content, d.2) }
  | none => { fs with dbNew := some (content, 292) }

/-- Step 4: unlink any `db.backup` (`ENOENT` tolerated) and hard-link
the current `db` to it; fails when `db` does not exist. -/
def relinkBackup (fs : DbFs) : Option DbFs :=
  match fs.db with
  | none => none
  | some d => some { fs with dbBak := some d }

/-- Step 5: `rename` the new database over `db`. -/
def renameNewToDb (fs : DbFs) : Option DbFs :=
  match fs.dbNew with
  | none => none
  | some d => some { fs with db := some d, dbNew := none }

/-- Model of `pkgutil::db_commit`: the three-file atomic commit dance.
`none` models a thrown `runtime_error`. -/
def db_commit (fs : DbFs) (pkgs : Packages) : Option DbFs :=
  match relinkBackup (creatNew (unlinkNew fs) (serialize pkgs)) with
  | none => none
  | some fs4 => renameNewToDb fs4

/-- Model of `pkgutil::db_open` on the modelled directory: fails when `db` is
absent, otherwise loads the catalogue from its lines. -/
def db_open_pkgs (fs : DbFs) : Option Packages :=
  match fs.db with
  | none => none
  | some d => some (parseDb d.1)

theorem serialize_foldl_acc (pkgs : Packages) (acc : List String) :
    pkgs.foldl
      (fun a e =>
        if e.2.files.isEmpty then a
        else a ++ (e.1 :: e.2.version :: e.2.files ++ [""])) acc
      = acc ++ serialize pkgs := by
  induction pkgs generalizing acc with
  | nil => simp [serialize]
  | cons e es ih =>
    simp only [serialize, List.foldl_cons]
    by_cases hfe : e.2.files.isEmpty
    · simp only [if_pos hfe]
      rw [ih, ih]
      simp
    · simp only [if_neg hfe, List.nil_append]
      rw [ih, ih, List.append_assoc]

theorem serialize_cons (e : String × Pkginfo) (es : Packages) :
    serialize (e :: es)
      = (if e.2.files.isEmpty then []
         else e.1 :: e.2.version :: e.2.files ++ [""]) ++ serialize es := by
  simp only [serialize, List.foldl_cons]
  by_cases hfe : e.2.files.isEmpty
  · simp only [if_pos hfe]
    rw [serialize_foldl_acc]
    simp [serialize]
  · simp only [if_neg hfe, List.nil_append]
    rw [serialize_foldl_acc]
    rfl

theorem serialize_eq_flatMap (pkgs : Packages) :
    serialize pkgs
      = (pkgs.filter (fun e => !e.2.files.isEmpty)).flatMap
        (fun e => e.1 :: e.2.version :: e.2.files ++ [""]) := by
  induction pkgs with
  | nil => simp [serialize]
  | cons e es ih =>
    rw [serialize_cons, List.filter_cons]
    by_cases hfe : e.2.files.isEmpty
    · simp only [if_pos hfe, hfe]
      simpa using ih
    · simp only [if_neg hfe]
      simp only [Bool.not_eq_true'] at hfe
      simp only [hfe]
      simp only [Bool.not_false, if_pos]
      rw [List.flatMap_cons, ih]

theorem readFiles_append {files rest : List String}
    (h : ∀ f ∈ files, f ≠ "") :
    readFiles (files ++ "" :: rest) = (files, rest) := by
  induction files with
  | nil => simp [readFiles]
  | cons f fs ih =>
    have hf : f ≠ "" := h f (List.mem_cons_self f fs)
    simp only [List.cons_append, readFiles, if_neg hf]
    simp only [List.append_eq]
    rw [ih (fun x hx => h x (List.mem_cons_of_mem f hx))]

theorem pkgsInsert_append_of_lt {name : String} {info : Pkginfo} {m : Packages}
    (h : ∀ e ∈ m, strLt e.1 name = true) :
    pkgsInsert name info m = m ++ [(name, info)] := by
  induction m with
  | nil => simp [pkgsInsert]
  | cons e es ih =>
    obtain ⟨n, i⟩ := e
    have hn : strLt n name = true := h (n, i) (List.mem_cons_self _ _)
    simp only [pkgsInsert]
    rw [if_neg (by rw [strLt_asymm hn]; simp),
      if_neg (Ne.symm (strLt_ne hn)), List.cons_append]
    rw [ih (fun x hx => h x (List.mem_cons_of_mem _ hx))]

theorem parseDbAux_serialize {pkgs : Packages} (m : Packages)
    (hs : List.Pairwise (fun a b : String × Pkginfo => strLt a.1 b.1 = true) pkgs)
    (hm : ∀ e ∈ m, ∀ e' ∈ pkgs, strLt e.1 e'.1 = true)
    (hwf : ∀ e ∈ pkgs, "" ∉ e.2.files) :
    parseDbAux m (serialize pkgs)
      = m ++ pkgs.filter (fun e => !e.2.files.isEmpty) := by
  induction pkgs generalizing m with
  | nil => simp [serialize, parseDbAux]
  | cons e es ih =>
    rw [serialize_cons]
    rw [List.pairwise_cons] at hs
    by_cases hfe : e.2.files.isEmpty
    · rw [if_pos hfe, List.nil_append, List.filter_cons]
      have : (!e.2.files.isEmpty) = false := by simp [hfe]
      rw [this, if_neg (by simp)]
      exact ih m hs.2
        (fun x hx e' he' => hm x hx e' (List.mem_cons_of_mem e he'))
        (fun x hx => hwf x (List.mem_cons_of_mem e hx))
    · obtain ⟨f, fs, hffs⟩ : ∃ f fs, e.2.files = f :: fs := by
        cases hcs : e.2.files with
        | nil => rw [hcs] at hfe; simp at hfe
        | cons f fs => exact ⟨f, fs, rfl⟩
      rw [if_neg hfe]
      have hcons : (e.1 :: e.2.version :: e.2.files ++ [""]) ++ serialize es
          = e.1 :: e.2.version :: (e.2.files ++ "" :: serialize es) := by
        simp
      rw [hcons]
      have hrf : readFiles (e.2.files ++ "" :: serialize es)
          = (e.2.files, serialize es) :=
        readFiles_append (fun x hx hxe => by
          exact hwf e (List.mem_cons_self _ _) (hxe ▸ hx))
      have hne : e.2.files ≠ [] := by
        rw [hffs]; simp
      simp only [parseDbAux, hrf]
      rw [if_neg (by simpa using hne)]
      have heta : (⟨e.2.version, e.2.files⟩ : Pkginfo) = e.2 := rfl
      rw [heta]
      have hins : pkgsInsert e.1 e.2 m = m ++ [(e.1, e.2)] :=
        pkgsInsert_append_of_lt (fun x hx => hm x hx e (List.mem_cons_self _ _))
      rw [hins]
      have : (e.1, e.2) = e := rfl
      rw [this]
      have hmm : ∀ x ∈ m ++ [e], ∀ e' ∈ es, strLt x.1 e'.1 = true := by
        intro x hx e' he'
        rcases List.mem_append.mp hx with hxm | hxe
        · exact hm x hxm e' (List.mem_cons_of_mem e he')
        · have hxe' : x = e := by simpa using hxe
          exact hxe' ▸ hs.1 e' he'
      rw [ih (m ++ [e]) hs.2 hmm
        (fun x hx => hwf x (List.mem_cons_of_mem e hx))]
      rw [List.filter_cons, if_pos (by simpa using hfe)]
      simp

/-- Round trip: parsing the serialised catalogue yields the catalogue
restricted to entries with a non-empty file list. -/
theorem parseDb_serialize {pkgs : Packages}
    (hs : List.Pairwise (fun a b : String × Pkginfo => strLt a.1 b.1 = true) pkgs)
    (hwf : ∀ e ∈ pkgs, "" ∉ e.2.files) :
    parseDb (serialize pkgs) = pkgs.filter (fun e => !e.2.files.isEmpty) := by
  have h := @parseDbAux_serialize pkgs [] hs (by simp) hwf
  simpa [parseDb] using h

/-! ### Remove engine: `db_rm_pkg` (both overloads) and `db_rm_files`

The catalogue phases are separated from the filesystem deletion loop.
The wider filesystem appears as an existence predicate `fsx` and a
`remove(2)` outcome function. -/

/-- Result of the C library `remove` call on one path. -/
inductive RmOutcome where
  | ok
  | notEmpty
  | otherErr
deriving DecidableEq, Repr

/-- Model of `pkgutil::db_rm_pkg(name)`, catalogue phases: collect the package's
files (`packages[name]`), erase the entry, subtract every file still
referenced by a remaining package.  Returns the deletion set and the
new catalogue. -/
def db_rm_pkg_sets (pkgs : Packages) (name : String) :
    List String × Packages :=
  let p := mapIndex pkgs name
  let pkgs2 := pkgsErase name p.2
  (subtractRefs p.1.files pkgs2, pkgs2)

/-- Model of `pkgutil::db_rm_pkg(name, keep_list)`, catalogue phases: same, with
the keep list subtracted before the reference subtraction. -/
def db_rm_pkg_keep_sets (pkgs : Packages) (name : String)
    (keep_list : List String) : List String × Packages :=
  let p := mapIndex pkgs name
  let pkgs2 := pkgsErase name p.2
  let files1 := eraseAllList p.1.files keep_list
  (subtractRefs files1 pkgs2, pkgs2)

/-- Model of `pkgutil::db_rm_files(files, keep_list)`, catalogue phases: erase
every given path from every entry's file set, then subtract the keep
list from the deletion set. -/
def db_rm_files_sets (pkgs : Packages) (files : List String)
    (keep_list : List String) : List String × Packages :=
  let pkgs2 := pkgs.map
    (fun e => (e.1, Pkginfo.mk e.2.version (eraseAllList e.2.files files)))
  (eraseAllList files keep_list, pkgs2)

/-- Deletion loop of `db_rm_pkg(name)`: iterate the deletion set in
reverse, attempt `remove` on every existing `root+path`, and report
every failure (this loop has no `ENOTEMPTY` case).  Returns the
reported paths. -/
def deleteReportsNoSkip (fsx : String → Bool) (out : String → RmOutcome)
    (root : String) (files : List String) : List String :=
  files.reverse.foldl
    (fun acc f =>
      let filename := root ++ f
      if fsx filename then
        match out filename with
        | RmOutcome.ok => acc
        | RmOutcome.notEmpty => acc ++ [filename]
        | RmOutcome.otherErr => acc ++ [filename]
      else acc) []

/-- Deletion loop of `db_rm_pkg(name, keep_list)` and `db_rm_files`:
same reverse iteration, but an `ENOTEMPTY` failure is skipped with
`continue` before the message is printed. -/
def deleteReportsSkipNotEmpty (fsx : String → Bool) (out : String → RmOutcome)
    (root : String) (files : List String) : List String :=
  files.reverse.foldl
    (fun acc f =>
      let filename := root ++ f
      if fsx filename then
        match out filename with
        | RmOutcome.ok => acc
        | RmOutcome.notEmpty => acc
        | RmOutcome.otherErr => acc ++ [filename]
      else acc) []

/-- Model of `pkgutil::db_rm_pkg(name)` end to end: diagnostic lines produced by
the deletion phase. -/
def db_rm_pkg_reports (pkgs : Packages) (fsx : String → Bool)
    (out : String → RmOutcome) (root : String) (name : String) : List String :=
  deleteReportsNoSkip fsx out root (db_rm_pkg_sets pkgs name).1

/-- Model of `pkgutil::db_rm_pkg(name, keep_list)` end to end: diagnostic lines
produced by the deletion phase. -/
def db_rm_pkg_keep_reports (pkgs : Packages) (fsx : String → Bool)
    (out : String → RmOutcome) (root : String) (name : String)
    (keep_list : List String) : List String :=
  deleteReportsSkipNotEmpty fsx out root (db_rm_pkg_keep_sets pkgs name keep_list).1

/-! ### Conflict detector: `pkgutil::db_find_conflicts` -/

/-- Phase 1: for every package with a different name, insert the
ordered-set intersection of its file list with the candidate's. -/
def conflictsPhase1 (pkgs : Packages) (name : String) (info : Pkginfo) :
    List String :=
  pkgs.foldl
    (fun files e =>
      if e.1 ≠ name then
        (info.files.filter (fun f => f ∈ e.2.files)).foldl
          (fun s x => insertSorted x s) files
      else files) []

/-- Phase 2: add every candidate path that exists under the root and is
not yet in the conflict set. -/
def conflictsPhase2 (fsx : String → Bool) (root : String) (info : Pkginfo)
    (files0 : List String) : List String :=
  info.files.foldl
    (fun files i =>
      if fsx (root ++ i) ∧ i ∉ files then insertSorted i files else files)
    files0

/-- Phase 3: erase from the conflict set every path whose last
character is a slash (iterating over a snapshot of the set). -/
def conflictsPhase3 (files : List String) : List String :=
  files.foldl
    (fun fs i => if endsSlash i then setErase i fs else fs) files

/-- Model of `pkgutil::db_find_conflicts`: the four phases; phase 4 drops every
path already owned by the same-name installed package.  The catalogue
is returned as well because phase 4 reads it through
`std::map::operator[]`. -/
def db_find_conflicts (pkgs : Packages) (fsx : String → Bool) (root : String)
    (name : String) (info : Pkginfo) : List String × Packages :=
  let f3 := conflictsPhase3 (conflictsPhase2 fsx root info
    (conflictsPhase1 pkgs name info))
  if db_find_pkg pkgs name then
    let p := mapIndex pkgs name
    (eraseAllList f3 p.1.files, p.2)
  else
    (f3, pkgs)

theorem mem_foldl_insertSorted {p : String} {l fs : List String} :
    p ∈ l.foldl (fun s x => insertSorted x s) fs ↔ p ∈ fs ∨ p ∈ l := by
  induction l generalizing fs with
  | nil => simp
  | cons x xs ih =>
    simp only [List.foldl_cons]
    rw [ih]
    rw [mem_insertSorted]
    simp only [List.mem_cons]
    tauto

theorem mem_conflictsPhase1 {p : String} {pkgs : Packages} {name : String}
    {info : Pkginfo} :
    p ∈ conflictsPhase1 pkgs name info
      ↔ ∃ e ∈ pkgs, e.1 ≠ name ∧ p ∈ info.files ∧ p ∈ e.2.files := by
  have aux : ∀ (l : Packages) (fs : List String),
      p ∈ l.foldl
        (fun files e =>
          if e.1 ≠ name then
            (info.files.filter (fun f => f ∈ e.2.files)).foldl
              (fun s x => insertSorted x s) files
          else files) fs
        ↔ p ∈ fs ∨ ∃ e ∈ l, e.1 ≠ name ∧ p ∈ info.files ∧ p ∈ e.2.files := by
    intro l
    induction l with
    | nil => simp
    | cons e es ih =>
      intro fs
      simp only [List.foldl_cons]
      rw [ih]
      by_cases hne : e.1 ≠ name
      · rw [if_pos hne]
        rw [mem_foldl_insertSorted]
        simp only [List.mem_filter, List.mem_cons, decide_eq_true_eq]
        constructor
        · rintro ((h | ⟨h1, h2⟩) | ⟨e', he', h⟩)
          · exact Or.inl h
          · exact Or.inr ⟨e, Or.inl rfl, hne, h1, h2⟩
          · exact Or.inr ⟨e', Or.inr he', h⟩
        · rintro (h | ⟨e', (rfl | he'), h⟩)
          · exact Or.inl (Or.inl h)
          · exact Or.inl (Or.inr ⟨h.2.1, h.2.2⟩)
          · exact Or.inr ⟨e', he', h⟩
      · rw [if_neg hne]
        push_neg at hne
        simp only [List.mem_cons]
        constructor
        · rintro (h | ⟨e', he', h⟩)
          · exact Or.inl h
          · exact Or.inr ⟨e', Or.inr he', h⟩
        · rintro (h | ⟨e', (rfl | he'), h⟩)
          · exact Or.inl h
          · exact absurd hne h.1
          · exact Or.inr ⟨e', he', h⟩
  exact (aux pkgs []).trans (by simp)

theorem mem_conflictsPhase2 {p : String} {fsx : String → Bool} {root : String}
    {info : Pkginfo} {fs0 : List String} :
    p ∈ conflictsPhase2 fsx root info fs0
      ↔ p ∈ fs0 ∨ (p ∈ info.files ∧ fsx (root ++ p)) := by
  have aux : ∀ (l : List String) (fs : List String),
      p ∈ l.foldl
        (fun files i =>
          if fsx (root ++ i) ∧ i ∉ files then insertSorted i files else files) fs
        ↔ p ∈ fs ∨ (p ∈ l ∧ fsx (root ++ p)) := by
    intro l
    induction l with
    | nil => simp
    | cons i is ih =>
      intro fs
      simp only [List.foldl_cons]
      rw [ih]
      by_cases hg : fsx (root ++ i) ∧ i ∉ fs
      · rw [if_pos hg]
        rw [mem_insertSorted]
        simp only [List.mem_cons]
        constructor
        · rintro ((rfl | h) | ⟨h1, h2⟩)
          · exact Or.inr ⟨Or.inl rfl, hg.1⟩
          · exact Or.inl h
          · exact Or.inr ⟨Or.inr h1, h2⟩
        · rintro (h | ⟨(rfl | h1), h2⟩)
          · exact Or.inl (Or.inr h)
          · exact Or.inl (Or.inl rfl)
          · exact Or.inr ⟨h1, h2⟩
      · rw [if_neg hg]
        simp only [List.mem_cons]
        constructor
        · rintro (h | ⟨h1, h2⟩)
          · exact Or.inl h
          · exact Or.inr ⟨Or.inr h1, h2⟩
        · rintro (h | ⟨(rfl | h1), h2⟩)
          · exact Or.inl h
          · rcases Decidable.not_and_iff_or_not.mp hg with hc | hc
            · exact absurd h2 hc
            · exact Or.inl (Decidable.not_not.mp hc)
          · exact Or.inr ⟨h1, h2⟩
  exact aux info.files fs0

theorem mem_conflictsPhase3 {p : String} {files : List String} :
    p ∈ conflictsPhase3 files ↔ p ∈ files ∧ ¬ endsSlash p := by
  have aux : ∀ (l : List String) (fs : List String),
      p ∈ l.foldl (fun fs i => if endsSlash i then setErase i fs else fs) fs
        ↔ p ∈ fs ∧ ¬(endsSlash p ∧ p ∈ l) := by
    intro l
    induction l with
    | nil => simp
    | cons i is ih =>
      intro fs
      simp only [List.foldl_cons]
      rw [ih]
      by_cases hq : endsSlash i
      · rw [if_pos hq]
        rw [mem_setErase]
        simp only [List.mem_cons]
        constructor
        · rintro ⟨⟨h1, h2⟩, h3⟩
          exact ⟨h1, fun ⟨hp, hm⟩ => hm.elim (fun h => h2 h) (fun h => h3 ⟨hp, h⟩)⟩
        · rintro ⟨h1, h2⟩
          refine ⟨⟨h1, fun hpi => ?_⟩, fun ⟨hp, hm⟩ => h2 ⟨hp, Or.inr hm⟩⟩
          exact h2 ⟨hpi ▸ hq, Or.inl hpi⟩
      · rw [if_neg hq]
        simp only [List.mem_cons]
        constructor
        · rintro ⟨h1, h3⟩
          refine ⟨h1, fun ⟨hp, hm⟩ => ?_⟩
          rcases hm with rfl | hm
          · exact hq hp
          · exact h3 ⟨hp, hm⟩
        · rintro ⟨h1, h2⟩
          exact ⟨h1, fun ⟨hp, hm⟩ => h2 ⟨hp, Or.inr hm⟩⟩
  simp only [conflictsPhase3]
  rw [aux files files]
  tauto

/-! ### Install/upgrade rules: `pkgadd::make_keep_list`,
`pkgadd::find_rules`, `pkgadd::apply_install_rules`

A rule's POSIX extended regular expression is embedded as an opaque
match predicate `pat : String → Bool`
(`pkgadd::rule_applies_to_file` compiles the pattern and tests the
path); the claims under study concern rule ordering only. -/

/-- Model of `rule_event_t`. -/
inductive RuleEvent where
  | upgrade
  | install
deriving DecidableEq, Repr

/-- Model of `rule_t`: event, match predicate of the pattern, action
(`true` = YES, `false` = NO). -/
structure Rule where
  event : RuleEvent
  pat : String → Bool
  action : Bool

/-- Model of `pkgadd::find_rules`: the sublist with the given event, in order. -/
def find_rules (rules : List Rule) (ev : RuleEvent) : List Rule :=
  rules.filter (fun r => r.event = ev)

/-- The inner loops of `make_keep_list` and `apply_install_rules`:
walk the event's rules backwards and stop at the first match, i.e.
find the last matching rule. -/
def lastRuleMatch (rules : List Rule) (ev : RuleEvent) (f : String) :
    Option Rule :=
  (find_rules rules ev).reverse.find? (fun r => r.pat f)

/-- Model of `pkgadd::make_keep_list`: keep a file iff the last matching
UPGRADE rule says NO. -/
def make_keep_list (files : List String) (rules : List Rule) : List String :=
  files.filter (fun f =>
    match lastRuleMatch rules RuleEvent.upgrade f with
    | some r => !r.action
    | none => false)

/-- The per-file decision of `apply_install_rules`: `install_file`
starts true and the last matching INSTALL rule's action overrides it. -/
def installDecision (rules : List Rule) (f : String) : Bool :=
  match lastRuleMatch rules RuleEvent.install f with
  | some r => r.action
  | none => true

/-- Model of `pkgadd::apply_install_rules`: split the file set into the
install set (kept in `info.files`) and the returned non-install set. -/
def apply_install_rules (files : List String) (rules : List Rule) :
    List String × List String :=
  (files.filter (fun f => installDecision rules f),
   files.filter (fun f => !installDecision rules f))

/-- Spec-side reading of "the last rule with this event whose pattern
matches": a decomposition of the rule list with no later match. -/
def IsLastMatch (rules : List Rule) (ev : RuleEvent) (f : String)
    (r : Rule) : Prop :=
  ∃ l1 l2, rules = l1 ++ r :: l2 ∧ r.event = ev ∧ r.pat f = true ∧
    ∀ r' ∈ l2, r'.event = ev → r'.pat f = false

theorem find_rev_eq_some_iff {α : Type} {q : α → Bool} {l : List α} {r : α} :
    l.reverse.find? q = some r
      ↔ q r = true ∧ ∃ l1 l2, l = l1 ++ r :: l2 ∧ ∀ x ∈ l2, q x = false := by
  rw [List.find?_eq_some]
  constructor
  · rintro ⟨hq, as, bs, hdecomp, hall⟩
    refine ⟨hq, bs.reverse, as.reverse, ?_, ?_⟩
    · have h := congrArg List.reverse hdecomp
      simpa [List.reverse_append] using h
    · intro x hx
      have := hall x (by simpa using hx)
      simpa using this
  · rintro ⟨hq, l1, l2, rfl, hall⟩
    refine ⟨hq, l2.reverse, l1.reverse, by simp [List.reverse_append], ?_⟩
    intro a ha
    have := hall a (by simpa using ha)
    simpa using this

theorem filter_decomp {α : Type} {q : α → Bool} {l f1 f2 : List α} {r : α}
    (h : l.filter q = f1 ++ r :: f2) :
    ∃ l1 l2, l = l1 ++ r :: l2 ∧ l2.filter q = f2 ∧ q r = true := by
  induction l generalizing f1 with
  | nil => simp at h
  | cons a as ih =>
    rw [List.filter_cons] at h
    by_cases hqa : q a
    · rw [if_pos hqa] at h
      cases f1 with
      | nil =>
        simp only [List.nil_append, List.cons.injEq] at h
        exact ⟨[], as, by simp [h.1], h.2, h.1 ▸ hqa⟩
      | cons b f1' =>
        simp only [List.cons_append, List.cons.injEq] at h
        obtain ⟨l1, l2, hdec, hfil, hqr⟩ := ih h.2
        exact ⟨a :: l1, l2, by rw [List.cons_append, hdec], hfil, hqr⟩
    · rw [if_neg hqa] at h
      obtain ⟨l1, l2, hdec, hfil, hqr⟩ := ih h
      exact ⟨a :: l1, l2, by rw [List.cons_append, hdec], hfil, hqr⟩

theorem lastRuleMatch_eq_some_iff {rules : List Rule} {ev : RuleEvent}
    {f : String} {r : Rule} :
    lastRuleMatch rules ev f = some r ↔ IsLastMatch rules ev f r := by
  rw [lastRuleMatch, find_rev_eq_some_iff]
  constructor
  · rintro ⟨hq, f1, f2, hdecomp, hall⟩
    obtain ⟨l1, l2, hdec, hfil, hev⟩ := filter_decomp hdecomp
    refine ⟨l1, l2, hdec, by simpa using hev, hq, ?_⟩
    intro r' hr' hev'
    have hmem : r' ∈ l2.filter (fun r => r.event = ev) :=
      List.mem_filter.mpr ⟨hr', by simp [hev']⟩
    rw [hfil] at hmem
    have := hall r' hmem
    simpa using this
  · rintro ⟨l1, l2, rfl, hev, hq, hall⟩
    refine ⟨hq, (l1.filter (fun r => r.event = ev)),
      (l2.filter (fun r => r.event = ev)), ?_, ?_⟩
    · rw [find_rules, List.filter_append, List.filter_cons,
        if_pos (by simp [hev])]
    · intro x hx
      obtain ⟨hxl, hxev⟩ := List.mem_filter.mp hx
      exact hall x hxl (by simpa using hxev)

theorem lastRuleMatch_eq_none_iff {rules : List Rule} {ev : RuleEvent}
    {f : String} :
    lastRuleMatch rules ev f = none
      ↔ ∀ r ∈ rules, r.event = ev → r.pat f = false := by
  rw [lastRuleMatch, List.find?_eq_none]
  constructor
  · intro h r hr hev
    have : r ∈ (find_rules rules ev).reverse := by
      rw [List.mem_reverse, find_rules, List.mem_filter]
      exact ⟨hr, by simp [hev]⟩
    simpa using h r this
  · intro h r hr
    rw [List.mem_reverse, find_rules, List.mem_filter] at hr
    simp only [decide_eq_true_eq] at hr
    simp [h r hr.1 hr.2]

/-! ### Archive filename parsing: `pkgutil::pkg_open`

Filenames are modelled as `List Char`.  `std::string::find`/`rfind`
index conventions are captured with `takeWhile`/`dropWhile`/`take`/
`drop`; `npos` corresponds to positions past the end of the list. -/

/-- Start index of the last occurrence of `pat` in `l`, or `l.length`
when there is none (the `std::string::rfind` result fed into a
prefix-constructor, for which `npos` means "take everything"). -/
def rfindSub (pat l : List Char) : Nat :=
  match ((List.range (l.length + 1)).filter
      (fun i => pat.isPrefixOf (l.drop i))).getLast? with
  | some i => i
  | none => l.length

/-- Model of `std::string basename(filename, filename.rfind('/') + 1)`. -/
def basenameOf (cs : List Char) : List Char :=
  (cs.reverse.takeWhile (fun c => c ≠ '/')).reverse

/-- Model of `PKG_EXT = ".pkg.tar"`. -/
def pkgExt : List Char := ['.', 'p', 'k', 'g', '.', 't', 'a', 'r']

/-- Model of `std::string name(basename, 0, basename.find('#'))`. -/
def pkg_name (filename : List Char) : List Char :=
  (basenameOf filename).takeWhile (fun c => c ≠ '#')

/-- Model of `std::string version(basename, 0, basename.rfind(".pkg.tar"))`
followed by `version.erase(0, version.find('#') + 1)` (erasing
everything when no `#` is present). -/
def pkg_version (filename : List Char) : List Char :=
  let b := basenameOf filename
  (((b.take (rfindSub pkgExt b)).dropWhile (fun c => c ≠ '#')).drop 1)

/-- The name/version extraction of `pkgutil::pkg_open`: `none` models
the `Invalid package name` error. -/
def pkg_open_parse (filename : List Char) : Option (List Char × List Char) :=
  let name := pkg_name filename
  let version := pkg_version filename
  if name.isEmpty || version.isEmpty then none else some (name, version)

/-- Modelled from the spec's words: the version is "the substring
starting after the first `#` and ending before the last `.pkg.tar`
occurrence" of the basename. -/
def pkg_version_spec (filename : List Char) : List Char :=
  let b := basenameOf filename
  (b.take (rfindSub pkgExt b)).drop
    ((b.takeWhile (fun c => c ≠ '#')).length + 1)

/-- Modelled from the spec's words: name is the prefix of the basename
before the first `#`, version as in `pkg_version_spec`, and the call
fails exactly when either is empty. -/
def pkg_open_parse_spec (filename : List Char) : Option (List Char × List Char) :=
  let name := (basenameOf filename).takeWhile (fun c => c ≠ '#')
  let version := pkg_version_spec filename
  if name.isEmpty || version.isEmpty then none else some (name, version)

theorem dropWhile_head_false {q : Char → Bool} :
    ∀ {b : List Char} {c : Char} {d' : List Char},
      b.dropWhile q = c :: d' → q c = false := by
  intro b
  induction b with
  | nil => intro c d' h; simp [List.dropWhile] at h
  | cons a as ih =>
    intro c d' h
    rw [List.dropWhile_cons] at h
    by_cases hqa : q a
    · rw [if_pos hqa] at h
      exact ih h
    · rw [if_neg hqa] at h
      cases h
      cases hc : q a
      · rfl
      · exact absurd hc hqa

theorem dropWhile_take_drop_one {q : Char → Bool} (b : List Char) (e : Nat) :
    ((b.take e).dropWhile q).drop 1
      = (b.take e).drop ((b.takeWhile q).length + 1) := by
  have hsplit := List.takeWhile_append_dropWhile q b
  set t := b.takeWhile q with ht
  set d := b.dropWhile q with hd
  have htq : ∀ x ∈ t, q x = true := fun x hx => List.mem_takeWhile_imp hx
  by_cases he : e ≤ t.length
  · have htake : b.take e = t.take e := by
      rw [← hsplit, List.take_append_eq_append_take,
        Nat.sub_eq_zero_of_le he, List.take_zero, List.append_nil]
    rw [htake]
    have hdw : (t.take e).dropWhile q = [] :=
      List.dropWhile_eq_nil_iff.mpr
        (fun x hx => htq x (List.mem_of_mem_take hx))
    rw [hdw, List.drop_nil]
    rw [Eq.comm, List.drop_eq_nil_iff_le]
    have : (t.take e).length ≤ e := by simp [List.length_take]
    omega
  · push_neg at he
    have htake : b.take e = t ++ d.take (e - t.length) := by
      rw [← hsplit, List.take_append_eq_append_take,
        List.take_of_length_le (le_of_lt he)]
    rw [htake]
    have hdwt : t.dropWhile q = [] := List.dropWhile_eq_nil_iff.mpr htq
    cases hdc : d with
    | nil =>
      simp only [hdc, List.take_nil, List.append_nil]
      rw [hdwt, List.drop_nil, Eq.comm, List.drop_eq_nil_iff_le]
      omega
    | cons c d' =>
      have hqc : q c = false := dropWhile_head_false (hd ▸ hdc)
      obtain ⟨m, hm⟩ : ∃ m, e - t.length = m + 1 := by
        refine ⟨e - t.length - 1, ?_⟩
        omega
      rw [hm, List.take_cons]
      rw [List.dropWhile_append]
      rw [hdwt]
      simp only [List.isEmpty_nil, if_true]
      rw [List.dropWhile_cons, hqc]
      simp only [Bool.false_eq_true, if_false]
      rw [List.drop_append_eq_append_drop]
      have h1 : List.drop (t.length + 1) t = [] := by
        rw [List.drop_eq_nil_iff]
        omega
      have h2 : t.length + 1 - t.length = 1 := by omega
      rw [h1, h2, List.nil_append]
      omega

/-! ### File content comparison: `file_equal` (`pkg_utils.cc`)

A path's `lstat` view is a `FileMeta`; the filesystem is a partial map
from paths to metadata (`none` = `lstat` failure). -/

/-- File metadata as `file_equal` distinguishes it: regular file with
byte content, symlink with target, character/block device with device
number, directory, or any other type. -/
inductive FileMeta where
  | reg (content : List Nat)
  | lnk (target : String)
  | chr (dev : Nat)
  | blk (dev : Nat)
  | dir
  | other
deriving DecidableEq, Repr

/-- The 4 KiB block-compare loop of `file_equal` for two regular
files: compare `gcount`s, the read bytes, and the eof flags, stopping
when the first stream reaches eof. -/
def regLoop (r1 r2 : List Nat) : Bool :=
  if min 4096 r1.length ≠ min 4096 r2.length then false
  else if r1.take 4096 ≠ r2.take 4096 then false
  else if decide (r1.length < 4096) ≠ decide (r2.length < 4096) then false
  else if r1.length < 4096 then true
  else regLoop (r1.drop 4096) (r2.drop 4096)
termination_by r1.length
decreasing_by
  simp only [List.length_drop]
  omega

/-- Model of `file_equal(file1, file2)`: dispatch on the two `lstat` results. -/
def file_equal (fs : String → Option FileMeta) (f1 f2 : String) : Bool :=
  match fs f1 with
  | none => false
  | some m1 =>
    match fs f2 with
    | none => false
    | some m2 =>
      match m1, m2 with
      | FileMeta.reg c1, FileMeta.reg c2 => regLoop c1 c2
      | FileMeta.lnk t1, FileMeta.lnk t2 => decide (t1 = t2)
      | FileMeta.chr d1, FileMeta.chr d2 => decide (d1 = d2)
      | FileMeta.blk d1, FileMeta.blk d2 => decide (d1 = d2)
      | _, _ => false

/-- The type combinations `file_equal` compares at all: two regular
files, two symlinks, two character devices, or two block devices. -/
def comparableKinds : FileMeta → FileMeta → Bool
  | FileMeta.reg _, FileMeta.reg _ => true
  | FileMeta.lnk _, FileMeta.lnk _ => true
  | FileMeta.chr _, FileMeta.chr _ => true
  | FileMeta.blk _, FileMeta.blk _ => true
  | _, _ => false

theorem regLoop_eq_true_iff :
    ∀ (n : Nat) (r1 r2 : List Nat), r1.length ≤ n →
      (regLoop r1 r2 = true ↔ r1 = r2) := by
  have step : ∀ (r1 r2 : List Nat),
      (¬ r1.length < 4096 → ¬ r2.length < 4096 →
        (regLoop (r1.drop 4096) (r2.drop 4096) = true
          ↔ r1.drop 4096 = r2.drop 4096)) →
      (regLoop r1 r2 = true ↔ r1 = r2) := by
    intro r1 r2 hrec
    rw [regLoop]
    by_cases h1 : min 4096 r1.length = min 4096 r2.length
    · rw [if_neg (fun hne => hne h1)]
      by_cases h2 : r1.take 4096 = r2.take 4096
      · rw [if_neg (fun hne => hne h2)]
        by_cases h3 : decide (r1.length < 4096) = decide (r2.length < 4096)
        · rw [if_neg (fun hne => hne h3)]
          rw [decide_eq_decide] at h3
          by_cases h4 : r1.length < 4096
          · rw [if_pos h4]
            have h4' : r2.length < 4096 := h3.mp h4
            have heq : r1 = r2 := by
              calc r1 = r1.take 4096 := (List.take_of_length_le (by omega)).symm
                _ = r2.take 4096 := h2
                _ = r2 := List.take_of_length_le (by omega)
            simp [heq]
          · rw [if_neg h4]
            have h4' : ¬ r2.length < 4096 := fun hc => h4 (h3.mpr hc)
            rw [hrec h4 h4']
            constructor
            · intro hdrop
              calc r1 = r1.take 4096 ++ r1.drop 4096 :=
                    (List.take_append_drop _ _).symm
                _ = r2.take 4096 ++ r2.drop 4096 := by rw [h2, hdrop]
                _ = r2 := List.take_append_drop _ _
            · intro hr
              rw [hr]
        · rw [if_pos h3]
          constructor
          · intro hc
            exact absurd hc (by simp)
          · intro hr
            subst hr
            exact absurd rfl h3
      · rw [if_pos h2]
        constructor
        · intro hc
          exact absurd hc (by simp)
        · intro hr
          subst hr
          exact absurd rfl h2
    · rw [if_pos h1]
      constructor
      · intro hc
        exact absurd hc (by simp)
      · intro hr
        subst hr
        exact absurd rfl h1
  intro n
  induction n with
  | zero =>
    intro r1 r2 h
    refine step r1 r2 ?_
    intro hlen
    exact absurd (by omega) hlen
  | succ n ih =>
    intro r1 r2 h
    refine step r1 r2 ?_
    intro hlen _
    exact ih (r1.drop 4096) (r2.drop 4096) (by simp only [List.length_drop]; omega)

/-! ### Install engine: `pkgadd::run` and `pkgutil::pkg_install`

`pkg_install` is modelled by its control flow over the archive
entries: which entries are skipped, which extraction failures are
reported, and when the loop aborts.  Extraction outcomes come from an
oracle `extractFails`. -/

/-- The extraction loop of `pkg_install`: skip entries in the
non-install set; on a failed extraction report the entry and, unless
this is an upgrade, abort with the extract error.  On success return
the reported (failed but tolerated) entries in order. -/
def pkg_install_loop (non_install : List String)
    (extractFails : String → Bool) (upgrade : Bool) :
    List String → Except String (List String)
  | [] => Except.ok []
  | e :: rest =>
    if e ∈ non_install then
      pkg_install_loop non_install extractFails upgrade rest
    else if extractFails e then
      if upgrade then
        match pkg_install_loop non_install extractFails upgrade rest with
        | Except.ok reported => Except.ok (e :: reported)
        | Except.error msg => Except.error msg
      else Except.error e
    else pkg_install_loop non_install extractFails upgrade rest

/-- Model of `pkgutil::pkg_install`: the entry loop plus the trailing
zero-header check (`empty package`). -/
def pkg_install_model (entries : List String) (non_install : List String)
    (extractFails : String → Bool) (upgrade : Bool) :
    Except String (List String) :=
  if entries.isEmpty then Except.error "empty package"
  else pkg_install_loop non_install extractFails upgrade entries

/-- Outcome of one `pkgadd::run` invocation: the surfaced error if
any, the final in-memory catalogue, and the final database files. -/
structure RunResult where
  err : Option String
  mem : Packages
  dbfs : DbFs
deriving DecidableEq, Repr

/-- Model of `pkgadd::run` from the point the database is open: option guards,
install rules, conflict handling, upgrade excision, commit, extraction
with rollback on a fresh install.  `entries` is the archive entry
list; `version` the version parsed from the filename. -/
def pkgadd_run (mem0 : Packages) (dbfs0 : DbFs) (fsx : String → Bool)
    (root : String) (name : String) (version : String)
    (entries : List String) (rules : List Rule) (force upgrade : Bool)
    (extractFails : String → Bool) : RunResult :=
  let installed := db_find_pkg mem0 name
  if installed ∧ ¬upgrade then
    ⟨some "already installed", mem0, dbfs0⟩
  else if ¬installed ∧ upgrade then
    ⟨some "not previously installed", mem0, dbfs0⟩
  else
    let split := apply_install_rules entries rules
    let info : Pkginfo := ⟨version, split.1⟩
    let non_install := split.2
    let cf := db_find_conflicts mem0 fsx root name info
    let mem1opt : Option Packages :=
      if cf.1.isEmpty then some cf.2
      else if force then
        let keep1 := if upgrade then make_keep_list cf.1 rules else []
        some (db_rm_files_sets cf.2 cf.1 keep1).2
      else none
    match mem1opt with
    | none => ⟨some "listed files already installed", mem0, dbfs0⟩
    | some mem1 =>
      let memK :=
        if upgrade then
          (db_rm_pkg_keep_sets mem1 name (make_keep_list split.1 rules)).2
        else mem1
      let mem2 := db_add_pkg memK name info
      match db_commit dbfs0 mem2 with
      | none => ⟨some "commit failed", mem2, dbfs0⟩
      | some dbfs1 =>
        match pkg_install_model entries non_install extractFails installed with
        | Except.ok _ => ⟨none, mem2, dbfs1⟩
        | Except.error _ =>
          if installed then ⟨none, mem2, dbfs1⟩
          else
            let r := db_rm_pkg_sets mem2 name
            match db_commit dbfs1 r.2 with
            | none => ⟨some "commit failed", r.2, dbfs1⟩
            | some dbfs2 => ⟨some "failed", r.2, dbfs2⟩

theorem db_commit_eq_some_iff {fs : DbFs} {pkgs : Packages} {fs' : DbFs} :
    db_commit fs pkgs = some fs'
      ↔ ∃ d, fs.db = some d
          ∧ fs' = ⟨some (serialize pkgs, 292), none, some d⟩ := by
  cases hdb : fs.db with
  | none =>
    simp [db_commit, unlinkNew, creatNew, relinkBackup, renameNewToDb, hdb]
  | some d =>
    simp only [db_commit, unlinkNew, creatNew, relinkBackup, renameNewToDb, hdb]
    constructor
    · intro h
      exact ⟨d, rfl, (Option.some.injEq _ _ ▸ h).symm⟩
    · rintro ⟨d', hd', rfl⟩
      cases hd'
      rfl

theorem db_find_conflicts_snd (pkgs : Packages) (fsx : String → Bool)
    (root name : String) (info : Pkginfo) :
    (db_find_conflicts pkgs fsx root name info).2 = pkgs := by
  simp only [db_find_conflicts]
  cases hlk : pkgsLookup name pkgs with
  | none => simp [db_find_pkg, hlk, mapIndex]
  | some i => simp [db_find_pkg, hlk, mapIndex]

theorem pkg_install_loop_upgrade_ok (non_install : List String)
    (extractFails : String → Bool) (entries : List String) :
    pkg_install_loop non_install extractFails true entries
      = Except.ok (entries.filter
          (fun e => e ∉ non_install ∧ extractFails e)) := by
  induction entries with
  | nil => simp [pkg_install_loop]
  | cons e rest ih =>
    simp only [pkg_install_loop, List.filter_cons]
    by_cases hmem : e ∈ non_install
    · rw [if_pos hmem, ih]
      simp [hmem]
    · rw [if_neg hmem]
      by_cases hf : extractFails e
      · rw [if_pos hf, if_pos trivial, ih]
        simp [hmem, hf]
      · rw [if_neg hf, ih]
        simp [hmem, hf]

/-! ### Claim theorems -/

/-- C1: a successful `db_commit` leaves no `db.incomplete_transaction`,
makes `db` the mode-0444 serialisation of exactly the non-empty
entries in catalogue iteration order, and makes `db.backup` a
byte-identical copy of the prior `db`. -/
theorem claim1_db_commit_postconditions (fs : DbFs) (pkgs : Packages)
    (fs' : DbFs) (h : db_commit fs pkgs = some fs') :
    fs'.dbNew = none
      ∧ fs'.db = some (serialize pkgs, 292)
      ∧ fs'.dbBak = fs.db
      ∧ serialize pkgs
          = (pkgs.filter (fun e => !e.2.files.isEmpty)).flatMap
            (fun e => e.1 :: e.2.version :: e.2.files ++ [""]) := by
  obtain ⟨d, hd, rfl⟩ := db_commit_eq_some_iff.mp h
  exact ⟨rfl, rfl, hd.symm, serialize_eq_flatMap pkgs⟩

theorem claim1_witness :
    db_commit ⟨some (["old", "0", "y", ""], 292), some (["junk"], 292),
        some (["stale"], 292)⟩
      [("a", ⟨"1", ["x"]⟩), ("b", ⟨"2", []⟩)]
      = some ⟨some (["a", "1", "x", ""], 292), none,
        some (["old", "0", "y", ""], 292)⟩
    ∧ (⟨some (["a", "1", "x", ""], 292), none,
        some (["old", "0", "y", ""], 292)⟩ : DbFs).dbBak
      = (⟨some (["old", "0", "y", ""], 292), some (["junk"], 292),
        some (["stale"], 292)⟩ : DbFs).db :=
  ⟨by decide,
   (claim1_db_commit_postconditions
      ⟨some (["old", "0", "y", ""], 292), some (["junk"], 292),
        some (["stale"], 292)⟩
      [("a", ⟨"1", ["x"]⟩), ("b", ⟨"2", []⟩)]
      ⟨some (["a", "1", "x", ""], 292), none,
        some (["old", "0", "y", ""], 292)⟩
      (by decide)).2.2.1⟩

/-- C3: neither `db_rm_pkg` overload ever has a path owned by a
package remaining in the catalogue in its deletion set: cross-package
references are subtracted before any filesystem removal. -/
theorem claim3_rm_pkg_preserves_shared (pkgs : Packages) (name : String)
    (keep_list : List String) (p : String) :
    (p ∈ (db_rm_pkg_sets pkgs name).1 →
      ∀ e ∈ (db_rm_pkg_sets pkgs name).2, p ∉ e.2.files)
    ∧ (p ∈ (db_rm_pkg_keep_sets pkgs name keep_list).1 →
      ∀ e ∈ (db_rm_pkg_keep_sets pkgs name keep_list).2, p ∉ e.2.files) := by
  constructor
  · intro hp e he
    simp only [db_rm_pkg_sets] at hp he
    exact (mem_subtractRefs.mp hp).2 e he
  · intro hp e he
    simp only [db_rm_pkg_keep_sets] at hp he
    exact (mem_subtractRefs.mp hp).2 e he

theorem claim3_witness :
    ("x" : String) ∉ (("b", ⟨"1", ["s/"]⟩) : String × Pkginfo).2.files :=
  (claim3_rm_pkg_preserves_shared
      [("a", ⟨"1", ["s/", "x"]⟩), ("b", ⟨"1", ["s/"]⟩)] "a" [] "x").1
    (by decide) ("b", ⟨"1", ["s/"]⟩) (by decide)

/-- C4: on a catalogue where package `a` owns only `share/`, with the
path existing and `remove` failing with `ENOTEMPTY`,
`db_rm_pkg(name)` reports the failure (it has no `ENOTEMPTY` skip),
while the keep-list overload silently skips the same failure — the
claimed silent skip does not hold for the single-argument overload. -/
theorem claim4_enotempty_reported :
    db_rm_pkg_reports [("a", ⟨"1", ["share/"]⟩)] (fun _ => true)
        (fun _ => RmOutcome.notEmpty) "/" "a" = ["/share/"]
    ∧ db_rm_pkg_keep_reports [("a", ⟨"1", ["share/"]⟩)] (fun _ => true)
        (fun _ => RmOutcome.notEmpty) "/" "a" [] = [] := by
  constructor
  · rfl
  · rfl

/-- C8: `pkg_open` filename parsing agrees with the spec's reading on
every input: name is the basename's prefix before the first `#`,
version the substring after the first `#` and before the last
`.pkg.tar` occurrence, and the call fails exactly when either is
empty. -/
theorem claim8_pkg_open_parse (filename : List Char) :
    pkg_open_parse filename = pkg_open_parse_spec filename := by
  simp only [pkg_open_parse, pkg_open_parse_spec, pkg_name, pkg_version,
    pkg_version_spec]
  rw [dropWhile_take_drop_one]

/-- C10: `db_find_conflicts` never changes the catalogue: the phase-4
`packages[name]` read is guarded, so no entry is inserted. -/
theorem claim10_conflicts_frame (pkgs : Packages) (fsx : String → Bool)
    (root name : String) (info : Pkginfo) :
    (db_find_conflicts pkgs fsx root name info).2 = pkgs :=
  db_find_conflicts_snd pkgs fsx root name info

theorem mem_conflict_set_sub {pkgs : Packages} {fsx : String → Bool}
    {root name : String} {info : Pkginfo} {p : String}
    (h : p ∈ conflictsPhase3 (conflictsPhase2 fsx root info
      (conflictsPhase1 pkgs name info))) :
    p ∈ info.files ∧ ¬ endsSlash p := by
  obtain ⟨h2, hslash⟩ := mem_conflictsPhase3.mp h
  refine ⟨?_, hslash⟩
  rcases mem_conflictsPhase2.mp h2 with h1 | ⟨hf, _⟩
  · obtain ⟨e, _, _, hf, _⟩ := mem_conflictsPhase1.mp h1
    exact hf
  · exact hf

/-- C5: a conflict set holds no directory path (trailing slash), and
when the same-name package is installed with an identical file set the
conflict set is empty. -/
theorem claim5_conflicts_no_dirs_self_inverse (pkgs : Packages)
    (fsx : String → Bool) (root name : String) (info i0 : Pkginfo)
    (p : String) :
    (p ∈ (db_find_conflicts pkgs fsx root name info).1 → endsSlash p = false)
    ∧ (pkgsLookup name pkgs = some i0 → i0.files = info.files →
        (db_find_conflicts pkgs fsx root name info).1 = []) := by
  constructor
  · intro hp
    simp only [db_find_conflicts] at hp
    by_cases hg : db_find_pkg pkgs name
    · rw [if_pos hg] at hp
      exact Bool.not_eq_true _ ▸
        (mem_conflict_set_sub (mem_eraseAllList.mp hp).1).2
    · rw [if_neg hg] at hp
      exact Bool.not_eq_true _ ▸ (mem_conflict_set_sub hp).2
  · intro hlk hfiles
    simp only [db_find_conflicts, db_find_pkg, hlk, Option.isSome_some,
      if_true, mapIndex]
    rw [List.eq_nil_iff_forall_not_mem]
    intro q hq
    obtain ⟨hq3, hqnot⟩ := mem_eraseAllList.mp hq
    have hqf : q ∈ info.files := (mem_conflict_set_sub hq3).1
    rw [hfiles] at hqnot
    exact hqnot hqf

theorem claim5_witness :
    endsSlash "x" = false
    ∧ (db_find_conflicts [("a", ⟨"1", ["x"]⟩)] (fun _ => false) "/" "a"
        ⟨"2", ["x"]⟩).1 = [] :=
  ⟨(claim5_conflicts_no_dirs_self_inverse [("b", ⟨"1", ["x"]⟩)]
      (fun _ => false) "/" "a" ⟨"1", ["x"]⟩ ⟨"1", ["x"]⟩ "x").1 (by decide),
   (claim5_conflicts_no_dirs_self_inverse [("a", ⟨"1", ["x"]⟩)]
      (fun _ => false) "/" "a" ⟨"2", ["x"]⟩ ⟨"1", ["x"]⟩ "x").2
     (by decide) rfl⟩

/-- C7: rule matching is last-match-wins: a path is kept on upgrade
iff the last matching UPGRADE rule says NO, excluded from installation
iff the last matching INSTALL rule says NO, and installed when no
INSTALL rule matches. -/
theorem claim7_last_match_wins (rules : List Rule) (files : List String)
    (p : String) :
    (p ∈ make_keep_list files rules
      ↔ p ∈ files ∧ ∃ r, IsLastMatch rules RuleEvent.upgrade p r
          ∧ r.action = false)
    ∧ (p ∈ (apply_install_rules files rules).2
      ↔ p ∈ files ∧ ∃ r, IsLastMatch rules RuleEvent.install p r
          ∧ r.action = false)
    ∧ (p ∈ files →
        (∀ r ∈ rules, r.event = RuleEvent.install → r.pat p = false) →
        p ∈ (apply_install_rules files rules).1) := by
  have decisionIff : ∀ ev,
      ((match lastRuleMatch rules ev p with
        | some r => !r.action
        | none => false) = true)
      ↔ ∃ r, IsLastMatch rules ev p r ∧ r.action = false := by
    intro ev
    cases hlm : lastRuleMatch rules ev p with
    | none =>
      simp only [Bool.false_eq_true, false_iff]
      rintro ⟨r, hr, _⟩
      have := lastRuleMatch_eq_some_iff.mpr hr
      rw [hlm] at this
      cases this
    | some r0 =>
      simp only [Bool.not_eq_true']
      constructor
      · intro hact
        exact ⟨r0, lastRuleMatch_eq_some_iff.mp hlm, hact⟩
      · rintro ⟨r, hr, hact⟩
        have := lastRuleMatch_eq_some_iff.mpr hr
        rw [hlm] at this
        cases this
        exact hact
  refine ⟨?_, ?_, ?_⟩
  · rw [make_keep_list, List.mem_filter]
    rw [decisionIff RuleEvent.upgrade]
  · rw [apply_install_rules, List.mem_filter]
    have : ∀ f, (!installDecision rules f)
        = (match lastRuleMatch rules RuleEvent.install f with
          | some r => !r.action
          | none => false) := by
      intro f
      rw [installDecision]
      cases lastRuleMatch rules RuleEvent.install f <;> simp
    rw [this p, decisionIff RuleEvent.install]
  · intro hp hnone
    rw [apply_install_rules, List.mem_filter]
    refine ⟨hp, ?_⟩
    rw [installDecision, lastRuleMatch_eq_none_iff.mpr hnone]

theorem claim7_witness :
    ("etc/f" : String) ∈ make_keep_list ["etc/f"]
      [⟨RuleEvent.upgrade, fun s => s == "etc/f", true⟩,
       ⟨RuleEvent.upgrade, fun s => s == "etc/f", false⟩] :=
  ((claim7_last_match_wins
      [⟨RuleEvent.upgrade, fun s => s == "etc/f", true⟩,
       ⟨RuleEvent.upgrade, fun s => s == "etc/f", false⟩]
      ["etc/f"] "etc/f").1).mpr
    ⟨by decide,
     ⟨RuleEvent.upgrade, fun s => s == "etc/f", false⟩,
     ⟨[⟨RuleEvent.upgrade, fun s => s == "etc/f", true⟩], [], rfl, rfl,
      by decide, by intro r' hr'; cases hr'⟩,
     rfl⟩

/-- C9: `file_equal` on two regular files is true only when the byte
contents (hence lengths) coincide; on two symlinks it is target
equality; on two character or block devices it is device-number
equality; every other type combination yields false. -/
theorem claim9_file_equal_cases (fs : String → Option FileMeta)
    (f1 f2 : String) :
    (∀ c1 c2, fs f1 = some (FileMeta.reg c1) → fs f2 = some (FileMeta.reg c2) →
      file_equal fs f1 f2 = true → c1 = c2 ∧ c1.length = c2.length)
    ∧ (∀ t1 t2, fs f1 = some (FileMeta.lnk t1) → fs f2 = some (FileMeta.lnk t2) →
      (file_equal fs f1 f2 = true ↔ t1 = t2))
    ∧ (∀ d1 d2, fs f1 = some (FileMeta.chr d1) → fs f2 = some (FileMeta.chr d2) →
      (file_equal fs f1 f2 = true ↔ d1 = d2))
    ∧ (∀ d1 d2, fs f1 = some (FileMeta.blk d1) → fs f2 = some (FileMeta.blk d2) →
      (file_equal fs f1 f2 = true ↔ d1 = d2))
    ∧ (∀ m1 m2, fs f1 = some m1 → fs f2 = some m2 →
      comparableKinds m1 m2 = false → file_equal fs f1 f2 = false) := by
  refine ⟨?_, ?_, ?_, ?_, ?_⟩
  · intro c1 c2 h1 h2 heq
    simp only [file_equal, h1, h2] at heq
    have := (regLoop_eq_true_iff c1.length c1 c2 le_rfl).mp heq
    exact ⟨this, by rw [this]⟩
  · intro t1 t2 h1 h2
    simp only [file_equal, h1, h2]
    exact decide_eq_true_iff
  · intro d1 d2 h1 h2
    simp only [file_equal, h1, h2]
    exact decide_eq_true_iff
  · intro d1 d2 h1 h2
    simp only [file_equal, h1, h2]
    exact decide_eq_true_iff
  · intro m1 m2 h1 h2 hk
    simp only [file_equal, h1, h2]
    cases m1 <;> cases m2 <;> simp_all [comparableKinds]

theorem claim9_witness :
    (file_equal
      (fun p => if p = "l1" then some (FileMeta.lnk "t")
        else if p = "l2" then some (FileMeta.lnk "t") else none)
      "l1" "l2" = true ↔ ("t" : String) = "t")
    ∧ file_equal
      (fun p => if p = "r" then some (FileMeta.reg [1])
        else if p = "d" then some FileMeta.dir else none)
      "r" "d" = false :=
  ⟨(claim9_file_equal_cases
      (fun p => if p = "l1" then some (FileMeta.lnk "t")
        else if p = "l2" then some (FileMeta.lnk "t") else none)
      "l1" "l2").2.1 "t" "t" (by decide) (by decide),
   (claim9_file_equal_cases
      (fun p => if p = "r" then some (FileMeta.reg [1])
        else if p = "d" then some FileMeta.dir else none)
      "r" "d").2.2.2.2 (FileMeta.reg [1]) FileMeta.dir
     (by decide) (by decide) (by decide)⟩

/-- C2 counterexample: a successful forced install of `b` over `a`'s
only file leaves `a` in the in-memory catalogue with an empty file
list; committing and reloading then drops `a`, so the reloaded mapping
differs from the committed one. -/
theorem claim2_counterexample :
    let r1 := pkgadd_run [] ⟨some ([], 292), none, none⟩ (fun _ => false)
      "/" "a" "1" ["x"] [] false false (fun _ => false)
    let r2 := pkgadd_run r1.mem r1.dbfs (fun _ => false)
      "/" "b" "1" ["x"] [] true false (fun _ => false)
    r1.err = none ∧ r2.err = none
      ∧ db_open_pkgs r2.dbfs ≠ some r2.mem := by
  refine ⟨by decide, by decide, ?_⟩
  have h2 : pkgadd_run
      (pkgadd_run [] ⟨some ([], 292), none, none⟩ (fun _ => false)
        "/" "a" "1" ["x"] [] false false (fun _ => false)).mem
      (pkgadd_run [] ⟨some ([], 292), none, none⟩ (fun _ => false)
        "/" "a" "1" ["x"] [] false false (fun _ => false)).dbfs
      (fun _ => false) "/" "b" "1" ["x"] [] true false (fun _ => false)
      = ⟨none, [("a", ⟨"1", []⟩), ("b", ⟨"1", ["x"]⟩)],
        ⟨some (["b", "1", "x", ""], 292), none,
          some (["a", "1", "x", ""], 292)⟩⟩ := by
    decide
  rw [h2]
  simp [db_open_pkgs, parseDb, parseDbAux, readFiles, pkgsInsert]

/-- C2 amended: for a catalogue with sorted keys and no empty-string
path, commit followed by reload yields the catalogue restricted to its
entries with a non-empty file list; the round trip is the identity
exactly when every entry is non-empty. -/
theorem claim2_roundtrip (fs : DbFs) (pkgs : Packages) (fs' : DbFs)
    (hs : List.Pairwise (fun a b : String × Pkginfo => strLt a.1 b.1 = true) pkgs)
    (hwf : ∀ e ∈ pkgs, "" ∉ e.2.files)
    (hc : db_commit fs pkgs = some fs') :
    db_open_pkgs fs' = some (pkgs.filter (fun e => !e.2.files.isEmpty))
    ∧ ((∀ e ∈ pkgs, e.2.files ≠ []) → db_open_pkgs fs' = some pkgs) := by
  obtain ⟨d, hd, rfl⟩ := db_commit_eq_some_iff.mp hc
  constructor
  · simp only [db_open_pkgs]
    rw [parseDb_serialize hs hwf]
  · intro hne
    simp only [db_open_pkgs]
    rw [parseDb_serialize hs hwf]
    congr 1
    rw [List.filter_eq_self]
    intro e he
    simpa using hne e he

theorem claim2_witness :
    db_open_pkgs ⟨some (["a", "1", "x", ""], 292), none, some ([], 292)⟩
      = some [("a", ⟨"1", ["x"]⟩)] :=
  (claim2_roundtrip ⟨some ([], 292), none, none⟩ [("a", ⟨"1", ["x"]⟩)]
    ⟨some (["a", "1", "x", ""], 292), none, some ([], 292)⟩
    (by simp) (by decide) (by decide)).2 (by decide)

/-- C6 counterexample: a failed fresh install that had force-removed a
conflicting file from another package rolls back only its own entry;
the persisted catalogue (and the in-memory one) differ from the state
before the install, because `a` has lost its file. -/
theorem claim6_counterexample :
    let r := pkgadd_run [("a", ⟨"1", ["x"]⟩)]
      ⟨some (serialize [("a", ⟨"1", ["x"]⟩)], 292), none, none⟩
      (fun _ => false) "/" "b" "1" ["x"] [] true false (fun _ => true)
    r.err = some "failed"
      ∧ r.mem ≠ [("a", ⟨"1", ["x"]⟩)]
      ∧ r.dbfs.db ≠ some (serialize [("a", ⟨"1", ["x"]⟩)], 292) := by
  refine ⟨by decide, by decide, by decide⟩

/-- C6 amended: when a fresh install (name not in the catalogue) with
an empty conflict set fails during extraction, the engine removes the
entry it had inserted, commits again and surfaces the failure, so the
catalogue and the persisted database equal their pre-install state;
with a forced conflict removal only the post-removal catalogue is
restored (see the counterexample).  During an upgrade the extraction
loop never aborts: every tolerated failure is reported and the loop
continues. -/
theorem claim6_fresh_rollback (mem0 : Packages) (dbfs0 : DbFs)
    (fsx : String → Bool) (root name version : String)
    (entries : List String) (rules : List Rule) (force : Bool)
    (extractFails : String → Bool) (d : List String × Nat) (msg : String)
    (hfresh : pkgsLookup name mem0 = none)
    (hnc : (db_find_conflicts mem0 fsx root name
      ⟨version, (apply_install_rules entries rules).1⟩).1 = [])
    (hdb : dbfs0.db = some d)
    (hfail : pkg_install_model entries (apply_install_rules entries rules).2
      extractFails false = Except.error msg) :
    ((pkgadd_run mem0 dbfs0 fsx root name version entries rules force false
        extractFails).err = some "failed"
      ∧ (pkgadd_run mem0 dbfs0 fsx root name version entries rules force false
        extractFails).mem = mem0
      ∧ (pkgadd_run mem0 dbfs0 fsx root name version entries rules force false
        extractFails).dbfs.db = some (serialize mem0, 292))
    ∧ pkg_install_loop (apply_install_rules entries rules).2 extractFails true
        entries
      = Except.ok (entries.filter
          (fun e => e ∉ (apply_install_rules entries rules).2
            ∧ extractFails e)) := by
  have hinstalled : db_find_pkg mem0 name = false := by
    simp [db_find_pkg, hfresh]
  have hcf2 : (db_find_conflicts mem0 fsx root name
      ⟨version, (apply_install_rules entries rules).1⟩).2 = mem0 :=
    db_find_conflicts_snd _ _ _ _ _
  have hlk2 : pkgsLookup name (pkgsInsert name
      ⟨version, (apply_install_rules entries rules).1⟩ mem0)
      = some ⟨version, (apply_install_rules entries rules).1⟩ :=
    pkgsLookup_insert_self
  have hcommit1 : db_commit dbfs0 (pkgsInsert name
      ⟨version, (apply_install_rules entries rules).1⟩ mem0)
      = some ⟨some (serialize (pkgsInsert name
          ⟨version, (apply_install_rules entries rules).1⟩ mem0), 292),
        none, some d⟩ :=
    db_commit_eq_some_iff.mpr ⟨d, hdb, rfl⟩
  have herase : pkgsErase name (pkgsInsert name
      ⟨version, (apply_install_rules entries rules).1⟩ mem0) = mem0 := by
    rw [pkgsErase_pkgsInsert]
    exact pkgsErase_eq_self_of_lookup_none hfresh
  have hcommit2 : db_commit ⟨some (serialize (pkgsInsert name
        ⟨version, (apply_install_rules entries rules).1⟩ mem0), 292),
        none, some d⟩ mem0
      = some ⟨some (serialize mem0, 292), none,
        some (serialize (pkgsInsert name
          ⟨version, (apply_install_rules entries rules).1⟩ mem0), 292)⟩ :=
    db_commit_eq_some_iff.mpr
      ⟨(serialize (pkgsInsert name
        ⟨version, (apply_install_rules entries rules).1⟩ mem0), 292), rfl, rfl⟩
  have hrun : pkgadd_run mem0 dbfs0 fsx root name version entries rules force
      false extractFails
      = ⟨some "failed", mem0,
        ⟨some (serialize mem0, 292), none,
          some (serialize (pkgsInsert name
            ⟨version, (apply_install_rules entries rules).1⟩ mem0), 292)⟩⟩ := by
    simp only [pkgadd_run, hinstalled, Bool.false_eq_true, false_and, if_false,
      not_false_eq_true, and_false, hnc, List.isEmpty_nil, if_true, hcf2,
      db_add_pkg, hcommit1, hfail, db_rm_pkg_sets, mapIndex, hlk2, herase,
      hcommit2, ite_false, ite_true]
  exact ⟨⟨by rw [hrun], by rw [hrun], by rw [hrun]⟩,
    pkg_install_loop_upgrade_ok _ _ _⟩

theorem claim6_witness :
    ((pkgadd_run [("a", ⟨"1", ["y"]⟩)]
        ⟨some (["a", "1", "y", ""], 292), none, none⟩
        (fun _ => false) "/" "b" "1" ["x"] [] false false
        (fun _ => true)).err = some "failed"
      ∧ (pkgadd_run [("a", ⟨"1", ["y"]⟩)]
        ⟨some (["a", "1", "y", ""], 292), none, none⟩
        (fun _ => false) "/" "b" "1" ["x"] [] false false
        (fun _ => true)).mem = [("a", ⟨"1", ["y"]⟩)]
      ∧ (pkgadd_run [("a", ⟨"1", ["y"]⟩)]
        ⟨some (["a", "1", "y", ""], 292), none, none⟩
        (fun _ => false) "/" "b" "1" ["x"] [] false false
        (fun _ => true)).dbfs.db
          = some (serialize [("a", ⟨"1", ["y"]⟩)], 292))
    ∧ pkg_install_loop (apply_install_rules ["x"] []).2 (fun _ => true) true
        ["x"]
      = Except.ok (["x"].filter
          (fun e => e ∉ (apply_install_rules ["x"] []).2
            ∧ (fun _ => true) e)) :=
  claim6_fresh_rollback [("a", ⟨"1", ["y"]⟩)]
    ⟨some (["a", "1", "y", ""], 292), none, none⟩
    (fun _ => false) "/" "b" "1" ["x"] [] false (fun _ => true)
    (["a", "1", "y", ""], 292) "x"
    (by decide) (by decide) rfl rfl
